import Mathlib

/-
Shallow embedding of the cooperative async-runtime core found in
src/guidellm/seed-documents/05-rust-async-runtime.rs, together with proofs
about its task lifecycle, cancellation, waker protocol, timer wheel and
work-stealing loop.

Machine integers: Rust usize / u64 values are modelled as Nat, taking
residues modulo 2^64 exactly where the source performs wrapping or
truncating arithmetic (u128 -> usize casts, xorshift shifts,
wrapping_add).  Fallible or panicking paths (indexing, division by zero,
unwrap) are modelled with Option, where none marks a panic.
-/

set_option maxHeartbeats 1000000

namespace RustRuntime

def U64 : Nat := 2 ^ 64

/- TaskState, line 55 of the source: Pending, Running, Waiting,
Completed, Cancelled. -/
inductive TaskState where
  | pending
  | running
  | waiting
  | completed
  | cancelled

deriving instance DecidableEq, Repr for TaskState

/- Priority, line 23 of the source: Low < Normal < High < Critical,
compared by discriminant as Rust's derived Ord does. -/
inductive Priority where
  | low
  | normal
  | high
  | critical

deriving instance DecidableEq, Repr for Priority

def Priority.rank : Priority → Nat
  | .low => 0
  | .normal => 1
  | .high => 2
  | .critical => 3

/- QueueEntry, line 128: a task (identity and priority) together with the
instant it was scheduled.  Instants are nanosecond counts. -/
structure QueueEntry where
  taskId : Nat
  priority : Priority
  scheduled_at : Nat

deriving instance DecidableEq, Repr for QueueEntry

/- QueueEntry::cmp, lines 147-155: higher priority first, then the
scheduled instants compared the other way round; no further tiebreak. -/
def QueueEntry.cmp (a b : QueueEntry) : Ordering :=
  match compare a.priority.rank b.priority.rank with
  | .eq => compare b.scheduled_at a.scheduled_at
  | o => o

/-
Sequential model of the Runtime facade state: the store of every task
ever created (the Arc store, keyed by TaskId and holding the atomic
state), the registry of currently registered TaskIds, the global ready
queue, the statistics counters and the TaskId counter.
-/
structure RT where
  tasks : List (Nat × TaskState)
  registry : List Nat
  globalQueue : List Nat
  tasksSpawned : Nat
  tasksCompleted : Nat
  tasksCancelled : Nat
  pollCount : Nat
  nextId : Nat

deriving instance DecidableEq, Repr for RT

/- Loading a task's atomic state through the Arc store. -/
def lookupState : List (Nat × TaskState) → Nat → Option TaskState
  | [], _ => none
  | (i, st) :: rest, id => if i = id then some st else lookupState rest id

/- Storing a task's atomic state (store / successful compare_exchange). -/
def setState : List (Nat × TaskState) → Nat → TaskState → List (Nat × TaskState)
  | [], _, _ => []
  | (i, st) :: rest, id, new =>
      if i = id then (i, new) :: rest else (i, st) :: setState rest id new

/- Runtime::spawn_with_priority, lines 372-390: fresh TaskId, state
Pending, registry insert, global-queue push_back, tasks_spawned += 1. -/
def spawn (s : RT) : Nat × RT :=
  (s.nextId,
   { s with
     tasks := (s.nextId, TaskState.pending) :: s.tasks
     registry := s.nextId :: s.registry
     globalQueue := s.globalQueue ++ [s.nextId]
     tasksSpawned := s.tasksSpawned + 1
     nextId := s.nextId + 1 })

/- Runtime::cancel, lines 410-426: look the id up in the registry; CAS
Pending→Cancelled, else CAS Waiting→Cancelled; on success increment
tasks_cancelled and return true, otherwise return false. -/
def cancel (s : RT) (id : Nat) : Bool × RT :=
  if id ∈ s.registry then
    match lookupState s.tasks id with
    | some TaskState.pending =>
        (true, { s with tasks := setState s.tasks id TaskState.cancelled
                        tasksCancelled := s.tasksCancelled + 1 })
    | some TaskState.waiting =>
        (true, { s with tasks := setState s.tasks id TaskState.cancelled
                        tasksCancelled := s.tasksCancelled + 1 })
    | _ => (false, s)
  else (false, s)

/- The task-handling arm of Runtime::worker_loop, lines 511-545: a task
pulled from a queue is discarded if Cancelled; the CAS Pending→Running
must succeed or the task is discarded; otherwise the future is polled
(pollReady tells whether poll returned Ready): Ready stores Completed,
bumps tasks_completed and removes the task from the registry; Pending
stores Waiting. -/
def handleTask (s : RT) (id : Nat) (pollReady : Bool) : RT :=
  match lookupState s.tasks id with
  | none => s
  | some st =>
      if st = TaskState.cancelled then s
      else if st ≠ TaskState.pending then s
      else
        if pollReady then
          { s with tasks := setState s.tasks id TaskState.completed
                   registry := s.registry.erase id
                   tasksCompleted := s.tasksCompleted + 1
                   pollCount := s.pollCount + 1 }
        else
          { s with tasks := setState s.tasks id TaskState.waiting
                   pollCount := s.pollCount + 1 }

/- The empty runtime state, as after Runtime::new. -/
def rt0 : RT :=
  { tasks := [], registry := [], globalQueue := []
    tasksSpawned := 0, tasksCompleted := 0, tasksCancelled := 0
    pollCount := 0, nextId := 0 }

/-
Waker protocol, Runtime::create_waker, lines 560-612.  A waker handle is
bound to a (task, local queue) pair; its observable effect is on the
task's state and the captured queue's contents, modelled by WakerCtx.
-/
structure WakerCtx where
  taskState : TaskState
  queue : List Nat

deriving instance DecidableEq, Repr for WakerCtx

/- The wake entry of the per-task vtable, lines 572-582: CAS
Waiting→Pending, and on success push the task onto the captured queue. -/
def vtWake (taskId : Nat) (c : WakerCtx) : WakerCtx :=
  if c.taskState = TaskState.waiting then
    { taskState := TaskState.pending, queue := c.queue ++ [taskId] }
  else c

/- The wake_by_ref entry, lines 584-595: same CAS and push (it differs
from wake only in reference counting, which has no state effect). -/
def vtWakeByRef (taskId : Nat) (c : WakerCtx) : WakerCtx :=
  if c.taskState = TaskState.waiting then
    { taskState := TaskState.pending, queue := c.queue ++ [taskId] }
  else c

/- The static sentinel VTABLE, lines 604-609: its wake and wake_by_ref
entries do nothing. -/
def sentinelWake (taskId : Nat) (c : WakerCtx) : WakerCtx := c

/- The clone entry of the per-task vtable, lines 565-570, builds the new
RawWaker over the sentinel VTABLE, so signaling a handle obtained by
clone runs the sentinel wake. -/
def vtCloneSignal : Nat → WakerCtx → WakerCtx := sentinelWake

/-
Work stealing, worker_loop lines 487-509.
-/

/- The xorshift step on the worker's u64 rng state, lines 496-498. -/
def xorshift64 (s : Nat) : Nat :=
  let s1 := (Nat.xor s (s <<< 13)) % U64
  let s2 := Nat.xor s1 (s1 >>> 17)
  (Nat.xor s2 (s2 <<< 5)) % U64

/- One probe-and-retry steal loop, lines 494-507: up to the given number
of probes, pick target = rng % num_queues, skip self, steal from the back
of the victim queue and count the steal.  Returns the stolen task (if
any), the queues, the rng state and the steal counter. -/
def stealLoop (workerId : Nat) (queues : List (List Nat)) (rng : Nat)
    (stealCount : Nat) : Nat → Option Nat × List (List Nat) × Nat × Nat
  | 0 => (none, queues, rng, stealCount)
  | probes + 1 =>
      let rng2 := xorshift64 rng
      let target := rng2 % queues.length
      if target ≠ workerId then
        match (queues.getD target []).getLast? with
        | some t =>
            (some t,
             queues.set target (queues.getD target []).dropLast,
             rng2, stealCount + 1)
        | none => stealLoop workerId queues rng2 stealCount probes
      else stealLoop workerId queues rng2 stealCount probes

/- The whole steal phase: `for i in 0..num_queues`, line 494. -/
def stealPhase (workerId : Nat) (queues : List (List Nat)) (rng : Nat)
    (stealCount : Nat) : Option Nat × List (List Nat) × Nat × Nat :=
  stealLoop workerId queues rng stealCount queues.length

/- Writing a task's state and reading it back through the store. -/
theorem lookupState_setState_found (ts : List (Nat × TaskState)) (id : Nat)
    (st new : TaskState) (h : lookupState ts id = some st) :
    lookupState (setState ts id new) id = some new := by
  induction ts with
  | nil => simp [lookupState] at h
  | cons p rest ih =>
      obtain ⟨i, s0⟩ := p
      by_cases hi : i = id
      · simp [lookupState, setState, hi]
      · simp only [lookupState, setState, if_neg hi] at h ⊢
        exact ih h

/-- C1. The per-task waker vtable's wake and wake_by_ref entries perform
the CAS Waiting→Pending and push the task onto the captured queue exactly
when the CAS succeeds, but the clone entry builds the new handle over the
static sentinel VTABLE, so signaling a handle obtained by clone is a
no-op: it neither attempts the transition nor pushes the task.  This
contradicts the claim (and the spec flags it as a bug in the code). -/
theorem create_waker_clone_signal_noop :
    vtWake 7 ⟨TaskState.waiting, [3]⟩ = ⟨TaskState.pending, [3, 7]⟩ ∧
    vtWakeByRef 7 ⟨TaskState.waiting, [3]⟩ = ⟨TaskState.pending, [3, 7]⟩ ∧
    vtWake 7 ⟨TaskState.pending, [3]⟩ = ⟨TaskState.pending, [3]⟩ ∧
    vtWakeByRef 7 ⟨TaskState.completed, [3]⟩ = ⟨TaskState.completed, [3]⟩ ∧
    vtCloneSignal 7 ⟨TaskState.waiting, [3]⟩ = ⟨TaskState.waiting, [3]⟩ := by
  decide

/-- C2 counterexample. Spawning a task on the fresh runtime and cancelling
it before it is ever polled succeeds, yet the task is NOT removed from the
registry: its id is still present after the cancel, contradicting the
claim that the task is removed from the registry. -/
theorem spawn_cancel_not_removed_from_registry :
    (cancel (spawn rt0).2 (spawn rt0).1).1 = true ∧
    (spawn rt0).1 ∈ (cancel (spawn rt0).2 (spawn rt0).1).2.registry := by
  decide

/-- C2 amended. For every runtime state, spawning a task and cancelling it
before it is ever polled: the cancel returns true, the task's final state
is Cancelled, tasks_cancelled increments exactly once, but the task
REMAINS in the registry — cancel does not remove it, and the worker loop
discards a cancelled task pulled from a queue without touching the
registry or any counter. -/
theorem spawn_cancel_cancelled_once (s : RT) (b : Bool) :
    (cancel (spawn s).2 (spawn s).1).1 = true ∧
    lookupState (cancel (spawn s).2 (spawn s).1).2.tasks (spawn s).1 =
      some TaskState.cancelled ∧
    (cancel (spawn s).2 (spawn s).1).2.tasksCancelled = s.tasksCancelled + 1 ∧
    (spawn s).1 ∈ (cancel (spawn s).2 (spawn s).1).2.registry ∧
    handleTask (cancel (spawn s).2 (spawn s).1).2 (spawn s).1 b =
      (cancel (spawn s).2 (spawn s).1).2 := by
  simp [spawn, cancel, lookupState, setState, handleTask]

/-- C3. cancel(id) returns true iff the id is registered and the task's
state at the CAS instant is Pending or Waiting (the code first attempts
CAS Pending→Cancelled, then Waiting→Cancelled); each successful cancel
increments tasks_cancelled by exactly one and leaves the task Cancelled;
a failed cancel changes nothing; and after a successful cancel, a
subsequent cancel on the same id returns false. -/
theorem cancel_spec (s : RT) (id : Nat) :
    ((cancel s id).1 = true ↔
      id ∈ s.registry ∧
        (lookupState s.tasks id = some TaskState.pending ∨
         lookupState s.tasks id = some TaskState.waiting)) ∧
    ((cancel s id).1 = true →
      (cancel s id).2.tasksCancelled = s.tasksCancelled + 1 ∧
      lookupState (cancel s id).2.tasks id = some TaskState.cancelled) ∧
    ((cancel s id).1 = false → (cancel s id).2 = s) ∧
    ((cancel s id).1 = true → (cancel (cancel s id).2 id).1 = false) := by
  by_cases hm : id ∈ s.registry
  · cases hst : lookupState s.tasks id with
    | none => simp [cancel, hm, hst]
    | some st =>
        cases st <;>
          simp [cancel, hm, hst, lookupState_setState_found s.tasks id _ _ hst]
  · simp [cancel, hm]

/-- C3 witness. The first cancel of a freshly spawned task returns true
and the repeated cancel on the same id returns false. -/
theorem cancel_spec_witness :
    (cancel (cancel (spawn rt0).2 0).2 0).1 = false :=
  (cancel_spec (spawn rt0).2 0).2.2.2 (by decide)

/-- C9. cancel(id) with a TaskId that is not present in the registry
returns false and leaves the entire runtime state — every task's state
and every statistics counter, including tasks_cancelled — unchanged. -/
theorem cancel_unregistered_noop (s : RT) (id : Nat) (h : id ∉ s.registry) :
    cancel s id = (false, s) := by
  simp [cancel, h]

/-- C9 witness. Cancelling id 5 on the fresh runtime (never spawned)
returns false and changes nothing. -/
theorem cancel_unregistered_noop_witness : cancel rt0 5 = (false, rt0) :=
  cancel_unregistered_noop rt0 5 (by decide)

/-- C7 counterexample. Two queue entries with identical priority and
identical scheduled instant but distinct TaskIds compare as Equal: the
comparator has no TaskId tie-break at all, contradicting the claim that
entries with identical (priority, instant) are ordered by TaskId
ascending. -/
theorem queueEntry_cmp_no_id_tiebreak :
    QueueEntry.cmp ⟨0, Priority.normal, 5⟩ ⟨1, Priority.normal, 5⟩ =
      Ordering.eq ∧ (0 : Nat) ≠ 1 := by
  decide

/-- C7 amended. The comparator ranks an entry strictly ahead (Greater,
i.e. popped first from the max-heap) iff it has strictly higher priority,
or equal priority and a strictly earlier scheduled instant; entries with
identical (priority, scheduled instant) compare as Equal regardless of
their TaskIds. -/
theorem queueEntry_cmp_spec (a b : QueueEntry) :
    (QueueEntry.cmp a b = Ordering.gt ↔
      b.priority.rank < a.priority.rank ∨
        (a.priority.rank = b.priority.rank ∧
          a.scheduled_at < b.scheduled_at)) ∧
    (QueueEntry.cmp a b = Ordering.eq ↔
      a.priority.rank = b.priority.rank ∧
        a.scheduled_at = b.scheduled_at) := by
  unfold QueueEntry.cmp
  rcases h : compare a.priority.rank b.priority.rank with _ | _ | _
  · have h1 : a.priority.rank < b.priority.rank := Nat.compare_eq_lt.mp h
    constructor
    · constructor
      · intro hc; cases hc
      · rintro (h2 | ⟨h2, h3⟩) <;> omega
    · constructor
      · intro hc; cases hc
      · rintro ⟨h2, h3⟩; omega
  · have h1 : a.priority.rank = b.priority.rank := Nat.compare_eq_eq.mp h
    constructor
    · rw [Nat.compare_eq_gt]
      constructor
      · intro hc; exact Or.inr ⟨h1, hc⟩
      · rintro (h2 | ⟨h2, h3⟩) <;> omega
    · rw [Nat.compare_eq_eq]
      constructor
      · intro hc; exact ⟨h1, hc.symm⟩
      · rintro ⟨h2, h3⟩; omega
  · have h1 : b.priority.rank < a.priority.rank := Nat.compare_eq_gt.mp h
    constructor
    · simp only [true_iff]
      exact Or.inl h1
    · constructor
      · intro hc; cases hc
      · rintro ⟨h2, h3⟩; omega

/- With a single worker, every probe of the steal loop picks target
rng % 1 = 0, which is the worker itself, so the probe is skipped. -/
theorem stealLoop_single (queues : List (List Nat)) (sc : Nat)
    (h1 : queues.length = 1) :
    ∀ n rng, ∃ rng2,
      stealLoop 0 queues rng sc n = (none, queues, rng2, sc) := by
  intro n
  induction n with
  | zero => intro rng; exact ⟨rng, rfl⟩
  | succ k ih =>
      intro rng
      obtain ⟨rng2, hr⟩ := ih (xorshift64 rng)
      refine ⟨rng2, ?_⟩
      simp [stealLoop, h1, Nat.mod_one, hr]

/-- C8. When the worker's snapshot of local queues has exactly one entry
(its own, worker id 0), the steal phase returns no task, leaves every
queue untouched (steal() is never called) and leaves the steal counter
unchanged, for every state of the xorshift pseudo-random generator. -/
theorem single_worker_never_steals (queues : List (List Nat))
    (rng sc : Nat) (h1 : queues.length = 1) :
    ∃ rng2, stealPhase 0 queues rng sc = (none, queues, rng2, sc) := by
  unfold stealPhase
  exact stealLoop_single queues sc h1 queues.length rng

/-- C8 witness. A concrete single-queue snapshot: no steal happens and the
steal counter stays at 3. -/
theorem single_worker_never_steals_witness :
    ∃ rng2, stealPhase 0 [[5, 6]] 7 3 = (none, [[5, 6]], rng2, 3) :=
  single_worker_never_steals [[5, 6]] 7 3 (by decide)

/-
Timer wheel, lines 157-244.  An Entry is a (deadline, task) pair; a wheel
level is a list of slots, each slot a list of entries.  Instants and
durations are nanosecond counts on Nat.  current_tick is a usize; the
u128 tick quotient is truncated to usize (% U64) exactly as the `as
usize` cast does, and slot arithmetic on usize wraps modulo U64.
-/

abbrev Entry := Nat × Nat

structure TimerWheel where
  wheels : List (List (List Entry))
  current_tick : Nat
  tick_duration : Nat
  last_tick : Nat

deriving instance DecidableEq, Repr for TimerWheel

/- The slot count of a level (0 when the level does not exist). -/
def sizeAt (tw : TimerWheel) (level : Nat) : Nat :=
  (tw.wheels.getD level []).length

/- The contents of one slot. -/
def slotAt (tw : TimerWheel) (level slot : Nat) : List Entry :=
  ((tw.wheels.getD level []).getD slot [])

/- Overwrite one slot. -/
def setSlot (tw : TimerWheel) (level slot : Nat) (v : List Entry) :
    TimerWheel :=
  { tw with wheels :=
      tw.wheels.set level ((tw.wheels.getD level []).set slot v) }

/- wheel[slot].push(entry) on one level. -/
def pushSlot (w : List (List Entry)) (slot : Nat) (e : Entry) :
    List (List Entry) :=
  w.set slot (w.getD slot [] ++ [e])

/- wheels[level][slot].push(entry). -/
def pushAt (ws : List (List (List Entry))) (level slot : Nat) (e : Entry) :
    List (List (List Entry)) :=
  ws.set level (pushSlot (ws.getD level []) slot e)

/- The level-search loop of TimerWheel::schedule, lines 192-200: starting
from `remaining` ticks, find the first level whose slot count exceeds the
remaining ticks, dividing by the level size otherwise.  Result:
some (some (level, slot)) when a level is found, some none when the loop
falls through (entry too far in the future), none when the Rust code
would panic (remaining /= 0 on an empty level). -/
def findPlacement (ct : Nat) :
    Nat → Nat → List (List (List Entry)) → Option (Option (Nat × Nat))
  | _, _, [] => some none
  | remaining, level, w :: rest =>
      if remaining < w.length then
        some (some (level, ((ct + remaining) % U64) % w.length))
      else if w.length = 0 then none
      else findPlacement ct (remaining / w.length) (level + 1) rest

/- TimerWheel::schedule, lines 180-205.  none marks a Rust panic:
indexing wheels[0] on an empty wheel list, % or / by a zero level size,
or the final last_mut().unwrap() on an empty wheel list. -/
def scheduleOpt (tw : TimerWheel) (now deadline tid : Nat) :
    Option TimerWheel :=
  if deadline ≤ now then
    match tw.wheels.head? with
    | none => none
    | some w0 =>
        if w0.length = 0 then none
        else
          let ws := pushAt tw.wheels 0 (tw.current_tick % w0.length) (deadline, tid)
          some { tw with wheels := ws }
  else if tw.tick_duration = 0 then none
  else
    let ticksAway := ((deadline - now) / tw.tick_duration) % U64
    match findPlacement tw.current_tick ticksAway 0 tw.wheels with
    | none => none
    | some (some (level, slot)) =>
        some { tw with wheels := pushAt tw.wheels level slot (deadline, tid) }
    | some none =>
        match tw.wheels.getLast? with
        | none => none
        | some lw =>
            if lw.length = 0 then none
            else
              let ws := pushAt tw.wheels (tw.wheels.length - 1) (lw.length - 1) (deadline, tid)
              some { tw with wheels := ws }

/- The re-scheduling fold of a cascaded slot, lines 223-227. -/
def cascadeFold (now : Nat) :
    List Entry → TimerWheel → Option TimerWheel
  | [], tw => some tw
  | e :: es, tw =>
      match scheduleOpt tw now e.1 e.2 with
      | none => none
      | some tw2 => cascadeFold now es tw2

/- The drain of one slot, lines 231-238: expired entries are appended to
the ready list, the others are re-scheduled. -/
def drainFold (now : Nat) :
    List Entry → TimerWheel → List Nat → Option (TimerWheel × List Nat)
  | [], tw, r => some (tw, r)
  | e :: es, tw, r =>
      if e.1 ≤ now then drainFold now es tw (r ++ [e.2])
      else
        match scheduleOpt tw now e.1 e.2 with
        | none => none
        | some tw2 => drainFold now es tw2 r

/- The body of the per-level loop of TimerWheel::advance, lines 216-239:
compute this level's slot from the (already incremented) current_tick;
when the slot is 0 and a next level exists, drain the next level's
corresponding slot and re-schedule its entries; then drain this level's
current slot. -/
def levelStep (now : Nat) (tw : TimerWheel) (r : List Nat) (level : Nat) :
    Option (TimerWheel × List Nat) :=
  if sizeAt tw level = 0 then none
  else
    let slot := tw.current_tick % sizeAt tw level
    let afterCascade : Option TimerWheel :=
      if slot = 0 ∧ level < tw.wheels.length - 1 then
        if sizeAt tw (level + 1) = 0 then none
        else
          let nextSlot :=
            (tw.current_tick / sizeAt tw level) % sizeAt tw (level + 1)
          cascadeFold now (slotAt tw (level + 1) nextSlot)
            (setSlot tw (level + 1) nextSlot [])
      else some tw
    match afterCascade with
    | none => none
    | some tw1 =>
        drainFold now (slotAt tw1 level slot) (setSlot tw1 level slot []) r

/- The `for level in 0..wheels.len()` loop of advance. -/
def levelsFold (now : Nat) :
    List Nat → TimerWheel → List Nat → Option (TimerWheel × List Nat)
  | [], tw, r => some (tw, r)
  | level :: rest, tw, r =>
      match levelStep now tw r level with
      | none => none
      | some (tw2, r2) => levelsFold now rest tw2 r2

/- One iteration of the while loop of advance, lines 211-239: advance
last_tick by one tick, wrapping-increment current_tick, then run every
level. -/
def tickStep (now : Nat) (tw : TimerWheel) (r : List Nat) :
    Option (TimerWheel × List Nat) :=
  let tw2 := { tw with
    last_tick := tw.last_tick + tw.tick_duration
    current_tick := (tw.current_tick + 1) % U64 }
  levelsFold now (List.range tw2.wheels.length) tw2 r

/- The while loop of advance, with fuel; running out of fuel (possible
only when tick_duration = 0, where the Rust loop never terminates) yields
none. -/
def advanceLoop (now : Nat) :
    Nat → TimerWheel → List Nat → Option (TimerWheel × List Nat)
  | 0, tw, r =>
      if tw.last_tick + tw.tick_duration ≤ now then none else some (tw, r)
  | fuel + 1, tw, r =>
      if tw.last_tick + tw.tick_duration ≤ now then
        match tickStep now tw r with
        | none => none
        | some (tw2, r2) => advanceLoop now fuel tw2 r2
      else some (tw, r)

/- TimerWheel::advance, lines 207-243, with `now` the wall-clock instant
sampled at the start of the call.  now + 1 steps of fuel always suffice
when tick_duration is positive. -/
def advance (tw : TimerWheel) (now : Nat) :
    Option (TimerWheel × List Nat) :=
  advanceLoop now (now + 1) tw []

/- Occurrence count of an entry in a list, used to state preservation of
timer entries. -/
def cnt (x : Entry) (l : List Entry) : Nat :=
  (l.filter (fun e => decide (e = x))).length

/- All entries currently stored in the wheel hierarchy. -/
def allEntries (tw : TimerWheel) : List Entry :=
  tw.wheels.flatten.flatten

/- The slot count of level k of a wheel hierarchy. -/
def sizeOfLevel (ws : List (List (List Entry))) (k : Nat) : Nat :=
  (ws.getD k []).length

/- The product N₀ · … · N_{k-1} of the level sizes below level k; the
span (in ticks) jointly addressed by levels 0..k-1. -/
def spanTo (ws : List (List (List Entry))) (k : Nat) : Nat :=
  ((ws.map List.length).take k).prod

theorem spanTo_zero (ws : List (List (List Entry))) : spanTo ws 0 = 1 := rfl

theorem spanTo_cons (w : List (List Entry)) (ws : List (List (List Entry)))
    (k : Nat) : spanTo (w :: ws) (k + 1) = w.length * spanTo ws k := by
  simp [spanTo, List.take_succ_cons]

theorem spanTo_pos (ws : List (List (List Entry)))
    (hpos : ∀ w ∈ ws, 0 < w.length) (k : Nat) : 0 < spanTo ws k := by
  refine List.prod_pos ?_
  intro a ha
  have ha2 : a ∈ ws.map List.length := List.mem_of_mem_take ha
  obtain ⟨w, hw, rfl⟩ := List.mem_map.mp ha2
  exact hpos w hw

/- The level-search loop, found case: when the truncated tick count Δ is
within the joint span of all levels, the loop stops at the smallest level
k whose size exceeds Δ divided by the span below k, and reports the slot
(current_tick + Δ/spanTo k) mod Nₖ (with usize wrap). -/
theorem findPlacement_found (ws : List (List (List Entry))) :
    ∀ (lvl ct Δ : Nat), ws ≠ [] →
    (∀ w ∈ ws, 0 < w.length) →
    Δ < spanTo ws ws.length →
    ∃ i, i < ws.length ∧
      (∀ j < i, sizeOfLevel ws j ≤ Δ / spanTo ws j) ∧
      Δ / spanTo ws i < sizeOfLevel ws i ∧
      findPlacement ct Δ lvl ws =
        some (some (lvl + i, ((ct + Δ / spanTo ws i) % U64) % sizeOfLevel ws i)) := by
  induction ws with
  | nil => intro lvl ct Δ hne; exact absurd rfl hne
  | cons w rest ih =>
      intro lvl ct Δ _ hpos hlt
      have hw : 0 < w.length := hpos w (List.mem_cons_self w rest)
      by_cases hΔ : Δ < w.length
      · refine ⟨0, Nat.succ_pos _, ?_, ?_, ?_⟩
        · intro j hj; omega
        · simpa [spanTo_zero, Nat.div_one, sizeOfLevel] using hΔ
        · simp [findPlacement, hΔ, spanTo_zero, Nat.div_one, sizeOfLevel]
      · have hwle : w.length ≤ Δ := Nat.le_of_not_lt hΔ
        have hrestne : rest ≠ [] := by
          intro h
          subst h
          have : spanTo [w] 1 = w.length := by simp [spanTo]
          rw [List.length_singleton, this] at hlt
          omega
        have hposr : ∀ v ∈ rest, 0 < v.length := fun v hv =>
          hpos v (List.mem_cons_of_mem w hv)
        have hspan : Δ / w.length < spanTo rest rest.length := by
          have heq2 := spanTo_cons w rest rest.length
          rw [List.length_cons, heq2] at hlt
          have h1 : Δ < spanTo rest rest.length * w.length := by
            rw [Nat.mul_comm] at hlt; exact hlt
          exact (Nat.div_lt_iff_lt_mul hw).mpr h1
        obtain ⟨i, hi, hjs, hplt, heq⟩ :=
          ih (lvl + 1) ct (Δ / w.length) hrestne hposr hspan
        refine ⟨i + 1, by simpa using Nat.succ_lt_succ hi, ?_, ?_, ?_⟩
        · intro j hj
          match j with
          | 0 => simpa [spanTo_zero, Nat.div_one, sizeOfLevel] using hwle
          | j + 1 =>
              have hj' : j < i := Nat.lt_of_succ_lt_succ hj
              have hrec := hjs j hj'
              rw [spanTo_cons, ← Nat.div_div_eq_div_mul]
              simpa [sizeOfLevel] using hrec
        · rw [spanTo_cons, ← Nat.div_div_eq_div_mul]
          simpa [sizeOfLevel] using hplt
        · have hfp : findPlacement ct Δ lvl (w :: rest) =
              findPlacement ct (Δ / w.length) (lvl + 1) rest := by
            simp [findPlacement, hΔ, hw.ne']
          rw [hfp, heq]
          have harith : lvl + 1 + i = lvl + (i + 1) := by omega
          rw [spanTo_cons, ← Nat.div_div_eq_div_mul]
          simp [harith, sizeOfLevel]

/- The level-search loop, overflow case: when Δ is at least the joint
span of all levels, the loop falls through every level. -/
theorem findPlacement_over (ws : List (List (List Entry))) :
    ∀ (lvl ct Δ : Nat),
    (∀ w ∈ ws, 0 < w.length) →
    spanTo ws ws.length ≤ Δ →
    findPlacement ct Δ lvl ws = some none := by
  induction ws with
  | nil => intro lvl ct Δ _ _; rfl
  | cons w rest ih =>
      intro lvl ct Δ hpos hle
      have hw : 0 < w.length := hpos w (List.mem_cons_self w rest)
      have hposr : ∀ v ∈ rest, 0 < v.length := fun v hv =>
        hpos v (List.mem_cons_of_mem w hv)
      have hrpos : 0 < spanTo rest rest.length := spanTo_pos rest hposr _
      have hle' : w.length * spanTo rest rest.length ≤ Δ := by
        have heq2 := spanTo_cons w rest rest.length
        rw [List.length_cons, heq2] at hle
        exact hle
      have hΔw : w.length ≤ Δ := by
        have h2 : w.length * 1 ≤ w.length * spanTo rest rest.length :=
          Nat.mul_le_mul_left _ hrpos
        rw [Nat.mul_one] at h2
        exact le_trans h2 hle'
      have hΔ : ¬ Δ < w.length := Nat.not_lt.mpr hΔw
      have hrec : spanTo rest rest.length ≤ Δ / w.length :=
        (Nat.le_div_iff_mul_le hw).mpr (by rw [Nat.mul_comm]; exact hle')
      simp only [findPlacement, if_neg hΔ, if_neg hw.ne']
      exact ih (lvl + 1) ct (Δ / w.length) hposr hrec

/- On positive level sizes the level-search loop never panics. -/
theorem findPlacement_ne_none (ws : List (List (List Entry))) :
    ∀ (lvl ct Δ : Nat),
    (∀ w ∈ ws, 0 < w.length) →
    findPlacement ct Δ lvl ws ≠ none := by
  induction ws with
  | nil => intro lvl ct Δ _; simp [findPlacement]
  | cons w rest ih =>
      intro lvl ct Δ hpos
      have hw : 0 < w.length := hpos w (List.mem_cons_self w rest)
      have hposr : ∀ v ∈ rest, 0 < v.length := fun v hv =>
        hpos v (List.mem_cons_of_mem w hv)
      by_cases hΔ : Δ < w.length
      · simp [findPlacement, hΔ]
      · simp only [findPlacement, if_neg hΔ, if_neg hw.ne']
        exact ih (lvl + 1) ct (Δ / w.length) hposr

/- Whatever the level-search loop finds is an in-bounds (level, slot). -/
theorem findPlacement_bounds (ws : List (List (List Entry))) :
    ∀ (lvl ct Δ k s : Nat),
    findPlacement ct Δ lvl ws = some (some (k, s)) →
    ∃ i, k = lvl + i ∧ i < ws.length ∧ s < sizeOfLevel ws i := by
  induction ws with
  | nil => intro lvl ct Δ k s h; simp [findPlacement] at h
  | cons w rest ih =>
      intro lvl ct Δ k s h
      by_cases hΔ : Δ < w.length
      · have hw : 0 < w.length := Nat.lt_of_le_of_lt (Nat.zero_le _) hΔ
        simp only [findPlacement, if_pos hΔ, Option.some.injEq,
          Prod.mk.injEq] at h
        obtain ⟨hk, hs⟩ := h
        refine ⟨0, by omega, Nat.succ_pos _, ?_⟩
        rw [← hs]
        simpa [sizeOfLevel] using Nat.mod_lt ((ct + Δ) % U64) hw
      · by_cases hw0 : w.length = 0
        · simp [findPlacement, hΔ, hw0] at h
        · simp only [findPlacement, if_neg hΔ, if_neg hw0] at h
          obtain ⟨i, hk, hi, hs⟩ := ih (lvl + 1) ct (Δ / w.length) k s h
          exact ⟨i + 1, by omega, by simpa using Nat.succ_lt_succ hi, by
            simpa [sizeOfLevel] using hs⟩

/- The wheel after wheels[level][slot].push(entry). -/
def pushed (tw : TimerWheel) (level slot : Nat) (e : Entry) : TimerWheel :=
  { tw with wheels := pushAt tw.wheels level slot e }

theorem getLast?_eq_getD (ws : List (List (List Entry))) (hne : ws ≠ []) :
    ws.getLast? = some (ws.getD (ws.length - 1) []) := by
  have hlen : ws.length - 1 < ws.length := by
    cases ws with
    | nil => exact absurd rfl hne
    | cons a l => simp
  rw [List.getLast?_eq_getElem?, List.getElem?_eq_getElem hlen,
    List.getD_eq_getElem ws [] hlen]

theorem sizeOfLevel_last_pos (ws : List (List (List Entry)))
    (hne : ws ≠ []) (hpos : ∀ w ∈ ws, 0 < w.length) :
    0 < sizeOfLevel ws (ws.length - 1) := by
  have hlen : ws.length - 1 < ws.length := by
    cases ws with
    | nil => exact absurd rfl hne
    | cons a l => simp
  have hmem : ws.getD (ws.length - 1) [] ∈ ws := by
    rw [List.getD_eq_getElem ws [] hlen]
    exact List.getElem_mem hlen
  exact hpos _ hmem

/-- C4. TimerWheel::schedule with positive level sizes and positive tick
duration: writing Δ for the integer number of ticks until the deadline
(Δ = (deadline − now) / tick_duration), (1) a deadline not in the future
is placed in the current slot of level 0; (2) a future deadline with Δ
within the joint span N₀·…·N_{L−1} is placed at the smallest level k such
that Δ, after successive integer division by the preceding level sizes
(i.e. Δ / (N₀·…·N_{k−1})), is < Nₖ, in slot (current_tick + Δ/(N₀·…·N_{k−1}))
mod Nₖ of level k; (3) when Δ reaches or exceeds that span, the entry is
placed in the last slot of the last level.  The two usize-bound
hypotheses keep the u128→usize cast and the usize slot addition exact. -/
theorem schedule_placement (tw : TimerWheel) (now deadline tid : Nat)
    (hne : tw.wheels ≠ [])
    (hpos : ∀ w ∈ tw.wheels, 0 < w.length)
    (htick : 0 < tw.tick_duration)
    (hcast : (deadline - now) / tw.tick_duration < U64)
    (hct : tw.current_tick + (deadline - now) / tw.tick_duration < U64) :
    (deadline ≤ now →
      scheduleOpt tw now deadline tid =
        some (pushed tw 0 (tw.current_tick % sizeOfLevel tw.wheels 0)
          (deadline, tid))) ∧
    (now < deadline →
      (deadline - now) / tw.tick_duration < spanTo tw.wheels tw.wheels.length →
      ∃ k, k < tw.wheels.length ∧
        (∀ j < k, sizeOfLevel tw.wheels j ≤
          ((deadline - now) / tw.tick_duration) / spanTo tw.wheels j) ∧
        ((deadline - now) / tw.tick_duration) / spanTo tw.wheels k <
          sizeOfLevel tw.wheels k ∧
        scheduleOpt tw now deadline tid =
          some (pushed tw k
            ((tw.current_tick +
              ((deadline - now) / tw.tick_duration) / spanTo tw.wheels k) %
              sizeOfLevel tw.wheels k) (deadline, tid))) ∧
    (now < deadline →
      spanTo tw.wheels tw.wheels.length ≤ (deadline - now) / tw.tick_duration →
      scheduleOpt tw now deadline tid =
        some (pushed tw (tw.wheels.length - 1)
          (sizeOfLevel tw.wheels (tw.wheels.length - 1) - 1)
          (deadline, tid))) := by
  refine ⟨?_, ?_, ?_⟩
  · intro hd
    obtain ⟨w0, rest, hws⟩ := List.exists_cons_of_ne_nil hne
    have hw0 : 0 < w0.length :=
      hpos w0 (by rw [hws]; exact List.mem_cons_self w0 rest)
    have hsz : sizeOfLevel tw.wheels 0 = w0.length := by
      rw [hws]; rfl
    rw [hsz]
    unfold scheduleOpt pushed
    rw [if_pos hd, hws]
    simp [hw0.ne']
  · intro hd hspan
    have hd' : ¬ deadline ≤ now := by omega
    obtain ⟨i, hi, hjs, hlt, heq⟩ :=
      findPlacement_found tw.wheels 0 tw.current_tick
        ((deadline - now) / tw.tick_duration) hne hpos hspan
    refine ⟨i, hi, hjs, hlt, ?_⟩
    have hmod : (tw.current_tick +
        ((deadline - now) / tw.tick_duration) / spanTo tw.wheels i) % U64 =
        tw.current_tick +
        ((deadline - now) / tw.tick_duration) / spanTo tw.wheels i := by
      refine Nat.mod_eq_of_lt (lt_of_le_of_lt ?_ hct)
      have := Nat.div_le_self ((deadline - now) / tw.tick_duration)
        (spanTo tw.wheels i)
      omega
    simp only [scheduleOpt, pushed, if_neg hd', if_neg htick.ne',
      Nat.mod_eq_of_lt hcast, heq, Nat.zero_add, hmod]
  · intro hd hover
    have hd' : ¬ deadline ≤ now := by omega
    have hfp := findPlacement_over tw.wheels 0 tw.current_tick
      ((deadline - now) / tw.tick_duration) hpos hover
    have hlast := sizeOfLevel_last_pos tw.wheels hne hpos
    simp only [scheduleOpt, pushed, if_neg hd', if_neg htick.ne',
      Nat.mod_eq_of_lt hcast, hfp, getLast?_eq_getD tw.wheels hne]
    have hlen' : ¬ (tw.wheels.getD (tw.wheels.length - 1) []).length = 0 := by
      simpa [sizeOfLevel] using hlast.ne'
    rw [if_neg hlen']
    rfl

/-- C4 witness. A two-level wheel with sizes [2, 2], current_tick 0, tick
duration 1: all three placement branches are exercised at concrete
inputs. -/
theorem schedule_placement_witness :
    scheduleOpt ⟨[[[], []], [[], []]], 0, 1, 0⟩ 10 5 1 =
      some ⟨[[[(5, 1)], []], [[], []]], 0, 1, 0⟩ ∧
    scheduleOpt ⟨[[[], []], [[], []]], 0, 1, 0⟩ 0 9 1 =
      some ⟨[[[], []], [[], [(9, 1)]]], 0, 1, 0⟩ := by
  have h1 := (schedule_placement ⟨[[[], []], [[], []]], 0, 1, 0⟩ 10 5 1
    (by decide) (by decide) (by decide) (by decide) (by decide)).1
    (by decide)
  have h3 := (schedule_placement ⟨[[[], []], [[], []]], 0, 1, 0⟩ 0 9 1
    (by decide) (by decide) (by decide) (by decide) (by decide)).2.2
    (by decide) (by decide)
  exact ⟨by rw [h1]; decide, by rw [h3]; decide⟩

/-- C10. TimerWheel::schedule is total on every wheel built with at least
one level, positive level sizes and a positive tick duration: no branch
panics — the per-tick division is guarded by deadline > now and by the
positive tick duration, the level-search loop terminates without dividing
by zero, and the final clamp indexes the last slot of the last (nonempty)
level. -/
theorem schedule_total (tw : TimerWheel) (now deadline tid : Nat)
    (hne : tw.wheels ≠ []) (hpos : ∀ w ∈ tw.wheels, 0 < w.length)
    (htick : 0 < tw.tick_duration) :
    (scheduleOpt tw now deadline tid).isSome = true := by
  by_cases hd : deadline ≤ now
  · obtain ⟨w0, rest, hws⟩ := List.exists_cons_of_ne_nil hne
    have hw0 : 0 < w0.length :=
      hpos w0 (by rw [hws]; exact List.mem_cons_self w0 rest)
    simp [scheduleOpt, hd, hws, hw0.ne']
  · simp only [scheduleOpt, if_neg hd, if_neg htick.ne']
    rcases hfp : findPlacement tw.current_tick
        (((deadline - now) / tw.tick_duration) % U64) 0 tw.wheels
      with _ | hplace
    · exact absurd hfp (findPlacement_ne_none tw.wheels 0 tw.current_tick
        (((deadline - now) / tw.tick_duration) % U64) hpos)
    · rcases hplace with _ | ⟨k, s⟩
      · have hlast := sizeOfLevel_last_pos tw.wheels hne hpos
        have hlen' : ¬ (tw.wheels.getD (tw.wheels.length - 1) []).length = 0 := by
          simpa [sizeOfLevel] using hlast.ne'
        have hne2 : ¬ tw.wheels[tw.wheels.length - 1]?.getD [] = [] := by
          rw [← List.getD_eq_getElem?_getD]
          intro h
          exact hlen' (by rw [h]; rfl)
        simp [hfp, getLast?_eq_getD tw.wheels hne, hlen', hne2]
      · simp [hfp]

/-- C10 witness. A concrete in-spec wheel accepts a far-future deadline
without panicking. -/
theorem schedule_total_witness :
    (scheduleOpt ⟨[[[], []], [[], []]], 0, 1, 0⟩ 0 1000 1).isSome = true :=
  schedule_total ⟨[[[], []], [[], []]], 0, 1, 0⟩ 0 1000 1
    (by decide) (by decide) (by decide)

/-
Entry-count bookkeeping: every timer entry that advance() handles is
either returned (only when expired) or re-inserted by schedule, never
invented or lost.
-/

theorem cnt_append (x : Entry) (a b : List Entry) :
    cnt x (a ++ b) = cnt x a + cnt x b := by
  simp [cnt, List.filter_append]

theorem cnt_pos_mem (x : Entry) (l : List Entry) (h : 0 < cnt x l) :
    x ∈ l := by
  induction l with
  | nil => simp [cnt] at h
  | cons e es ih =>
      by_cases he : e = x
      · subst he; exact List.mem_cons_self e es
      · have : cnt x (e :: es) = cnt x es := by
          simp [cnt, List.filter_cons, he]
        rw [this] at h
        exact List.mem_cons_of_mem e (ih h)

theorem cnt_mem_pos (x : Entry) (l : List Entry) (h : x ∈ l) :
    0 < cnt x l := by
  induction l with
  | nil => simp at h
  | cons e es ih =>
      rcases List.mem_cons.mp h with he | hes
      · subst he
        simp [cnt, List.filter_cons]
      · have h2 := ih hes
        by_cases he : e = x <;> simp [cnt, List.filter_cons, he] at h2 ⊢ <;> omega

/- Replacing slot contents inside one level: count balance. -/
theorem cnt_flatten_set (x : Entry) (w : List (List Entry)) :
    ∀ (slot : Nat) (v : List Entry), slot < w.length →
    cnt x (w.set slot v).flatten + cnt x (w.getD slot []) =
      cnt x w.flatten + cnt x v := by
  induction w with
  | nil => intro slot v h; simp at h
  | cons a w' ih =>
      intro slot v h
      cases slot with
      | zero =>
          simp only [List.set_cons_zero, List.flatten_cons,
            List.getD_cons_zero, cnt_append]
          omega
      | succ s =>
          have h' : s < w'.length := by simpa using h
          have := ih s v h'
          simp only [List.set_cons_succ, List.flatten_cons,
            List.getD_cons_succ, cnt_append]
          omega

/- Replacing one level inside the hierarchy: count balance. -/
theorem cnt_flatten2_set (x : Entry) (ws : List (List (List Entry))) :
    ∀ (level : Nat) (w2 : List (List Entry)), level < ws.length →
    cnt x (ws.set level w2).flatten.flatten + cnt x (ws.getD level []).flatten =
      cnt x ws.flatten.flatten + cnt x w2.flatten := by
  induction ws with
  | nil => intro level w2 h; simp at h
  | cons a ws' ih =>
      intro level w2 h
      cases level with
      | zero =>
          simp only [List.set_cons_zero, List.flatten_cons,
            List.getD_cons_zero, List.flatten_append, cnt_append]
          omega
      | succ l =>
          have h' : l < ws'.length := by simpa using h
          have := ih l w2 h'
          simp only [List.set_cons_succ, List.flatten_cons,
            List.getD_cons_succ, List.flatten_append, cnt_append]
          omega

/- Pushing an entry adds exactly that entry to the hierarchy. -/
theorem cnt_allEntries_pushed (tw : TimerWheel) (level slot : Nat) (e : Entry)
    (hl : level < tw.wheels.length) (hs : slot < sizeAt tw level) (x : Entry) :
    cnt x (allEntries (pushed tw level slot e)) =
      cnt x (allEntries tw) + cnt x [e] := by
  have hs' : slot < (tw.wheels.getD level []).length := hs
  have h1 := cnt_flatten_set x (tw.wheels.getD level []) slot
    ((tw.wheels.getD level []).getD slot [] ++ [e]) hs'
  rw [cnt_append x ((tw.wheels.getD level []).getD slot []) [e]] at h1
  have h2 := cnt_flatten2_set x tw.wheels level
    (pushSlot (tw.wheels.getD level []) slot e) hl
  unfold pushSlot at h2
  unfold allEntries pushed pushAt pushSlot
  dsimp only
  omega

/- Replacing slot contents: hierarchy-level count balance. -/
theorem cnt_allEntries_setSlot (tw : TimerWheel) (level slot : Nat)
    (v : List Entry) (hl : level < tw.wheels.length)
    (hs : slot < sizeAt tw level) (x : Entry) :
    cnt x (allEntries (setSlot tw level slot v)) + cnt x (slotAt tw level slot) =
      cnt x (allEntries tw) + cnt x v := by
  have hs' : slot < (tw.wheels.getD level []).length := hs
  have h1 := cnt_flatten_set x (tw.wheels.getD level []) slot v hs'
  have h2 := cnt_flatten2_set x tw.wheels level
    ((tw.wheels.getD level []).set slot v) hl
  unfold allEntries setSlot slotAt
  dsimp only
  omega

/- Pushing never changes the slot counts of any level. -/
theorem sizeAt_pushed (tw : TimerWheel) (level slot : Nat) (e : Entry)
    (i : Nat) : sizeAt (pushed tw level slot e) i = sizeAt tw i := by
  unfold sizeAt pushed pushAt
  dsimp only
  rw [List.getD_eq_getElem?_getD, List.getD_eq_getElem?_getD,
    List.getElem?_set]
  by_cases hi : level = i
  · subst hi
    by_cases hl : level < tw.wheels.length
    · simp [hl, pushSlot, List.getD_eq_getElem?_getD]
    · simp [hl, List.getElem?_eq_none (Nat.le_of_not_lt hl)]
  · simp [hi]

/- Overwriting one slot never changes the slot counts of any level. -/
theorem sizeAt_setSlot (tw : TimerWheel) (level slot : Nat) (v : List Entry)
    (i : Nat) : sizeAt (setSlot tw level slot v) i = sizeAt tw i := by
  unfold sizeAt setSlot
  dsimp only
  rw [List.getD_eq_getElem?_getD, List.getD_eq_getElem?_getD,
    List.getElem?_set]
  by_cases hi : level = i
  · subst hi
    by_cases hl : level < tw.wheels.length
    · simp [hl, List.getD_eq_getElem?_getD]
    · simp [hl, List.getElem?_eq_none (Nat.le_of_not_lt hl)]
  · simp [hi]

/- A level with a positive slot count exists in the hierarchy. -/
theorem sizeAt_pos_lt (tw : TimerWheel) (level : Nat)
    (h : 0 < sizeAt tw level) : level < tw.wheels.length := by
  by_contra hc
  have hc' : tw.wheels.length ≤ level := Nat.le_of_not_lt hc
  unfold sizeAt at h
  rw [List.getD_eq_getElem?_getD, List.getElem?_eq_none hc'] at h
  simp at h

/- schedule preserves the tick fields, the level structure and all slot
counts, and adds exactly the scheduled entry to the hierarchy. -/
theorem scheduleOpt_shape (tw tw2 : TimerWheel) (now d tid : Nat)
    (h : scheduleOpt tw now d tid = some tw2) :
    tw2.current_tick = tw.current_tick ∧
    tw2.tick_duration = tw.tick_duration ∧
    tw2.last_tick = tw.last_tick ∧
    tw2.wheels.length = tw.wheels.length ∧
    (∀ i, sizeAt tw2 i = sizeAt tw i) ∧
    (∀ x, cnt x (allEntries tw2) = cnt x (allEntries tw) + cnt x [(d, tid)]) := by
  unfold scheduleOpt at h
  by_cases hd : d ≤ now
  · rw [if_pos hd] at h
    cases hh : tw.wheels.head? with
    | none => rw [hh] at h; cases h
    | some w0 =>
        rw [hh] at h
        obtain ⟨tl, htl⟩ := List.head?_eq_some_iff.mp hh
        by_cases hw0 : w0.length = 0
        · simp only [hw0, if_pos rfl] at h; cases h
        · simp only [if_neg hw0] at h
          injection h with h2
          subst h2
          have hl : 0 < tw.wheels.length := by rw [htl]; simp
          have hsz : sizeAt tw 0 = w0.length := by
            unfold sizeAt; rw [htl]; rfl
          have hs : tw.current_tick % w0.length < sizeAt tw 0 := by
            rw [hsz]; exact Nat.mod_lt _ (Nat.pos_of_ne_zero hw0)
          exact ⟨rfl, rfl, rfl, by simp [pushAt],
            fun i => sizeAt_pushed tw 0 _ (d, tid) i,
            fun x => cnt_allEntries_pushed tw 0 _ (d, tid) hl hs x⟩
  · rw [if_neg hd] at h
    by_cases htick : tw.tick_duration = 0
    · rw [if_pos htick] at h; cases h
    · rw [if_neg htick] at h
      dsimp only at h
      cases hfp : findPlacement tw.current_tick
          (((d - now) / tw.tick_duration) % U64) 0 tw.wheels with
      | none => rw [hfp] at h; cases h
      | some pl =>
          rw [hfp] at h
          cases pl with
          | some ks =>
              obtain ⟨k, s⟩ := ks
              simp only [] at h
              injection h with h2
              subst h2
              obtain ⟨i, hk, hi, hs⟩ :=
                findPlacement_bounds tw.wheels 0 tw.current_tick _ k s hfp
              have hk' : k < tw.wheels.length := by omega
              have hs' : s < sizeAt tw k := by
                have : k = i := by omega
                rw [this]; exact hs
              exact ⟨rfl, rfl, rfl, by simp [pushAt],
                fun j => sizeAt_pushed tw k s (d, tid) j,
                fun x => cnt_allEntries_pushed tw k s (d, tid) hk' hs' x⟩
          | none =>
              simp only [] at h
              cases hlast : tw.wheels.getLast? with
              | none => rw [hlast] at h; cases h
              | some lw =>
                  rw [hlast] at h
                  by_cases hlw : lw.length = 0
                  · simp only [hlw, if_pos rfl] at h; cases h
                  · simp only [if_neg hlw] at h
                    injection h with h2
                    subst h2
                    have hne : tw.wheels ≠ [] := by
                      intro hempty
                      rw [hempty] at hlast
                      cases hlast
                    have hlw2 : lw = tw.wheels.getD (tw.wheels.length - 1) [] := by
                      have h4 := getLast?_eq_getD tw.wheels hne
                      rw [hlast] at h4
                      exact Option.some.inj h4
                    have hl : tw.wheels.length - 1 < tw.wheels.length := by
                      cases hws2 : tw.wheels with
                      | nil => exact absurd hws2 hne
                      | cons a l => simp
                    have hs : lw.length - 1 < sizeAt tw (tw.wheels.length - 1) := by
                      unfold sizeAt
                      rw [← hlw2]
                      omega
                    exact ⟨rfl, rfl, rfl, by simp [pushAt],
                      fun j => sizeAt_pushed tw _ _ (d, tid) j,
                      fun x => cnt_allEntries_pushed tw _ _ (d, tid) hl hs x⟩

theorem cnt_cons (x e : Entry) (es : List Entry) :
    cnt x (e :: es) = cnt x [e] + cnt x es := cnt_append x [e] es

/- Cascading a list of entries through schedule preserves shape and adds
exactly those entries back. -/
theorem cascadeFold_master (now : Nat) :
    ∀ (es : List Entry) (tw tw2 : TimerWheel),
    cascadeFold now es tw = some tw2 →
    tw2.current_tick = tw.current_tick ∧
    tw2.tick_duration = tw.tick_duration ∧
    tw2.last_tick = tw.last_tick ∧
    tw2.wheels.length = tw.wheels.length ∧
    (∀ i, sizeAt tw2 i = sizeAt tw i) ∧
    (∀ x, cnt x (allEntries tw2) = cnt x (allEntries tw) + cnt x es) := by
  intro es
  induction es with
  | nil =>
      intro tw tw2 h
      injection h with h2
      subst h2
      exact ⟨rfl, rfl, rfl, rfl, fun i => rfl, fun x => by simp [cnt]⟩
  | cons e es' ih =>
      intro tw tw2 h
      unfold cascadeFold at h
      cases hs : scheduleOpt tw now e.1 e.2 with
      | none => rw [hs] at h; cases h
      | some tw1 =>
          rw [hs] at h
          obtain ⟨hc1, hd1, hl1, hwl1, hsz1, hcnt1⟩ :=
            scheduleOpt_shape tw tw1 now e.1 e.2 hs
          obtain ⟨hc2, hd2, hl2, hwl2, hsz2, hcnt2⟩ := ih tw1 tw2 h
          refine ⟨by omega, by omega, by omega, by omega,
            fun i => by rw [hsz2 i, hsz1 i], fun x => ?_⟩
          have he : ((e.1, e.2) : Entry) = e := rfl

          rw [hcnt2 x, hcnt1 x, cnt_cons x e es', he]
          omega

/- Draining a list of entries: the expired ones (deadline ≤ now) are
appended, in order, to the ready list; the live ones are re-inserted;
no entry is lost or invented. -/
theorem drainFold_master (now : Nat) :
    ∀ (es : List Entry) (tw : TimerWheel) (r : List Nat)
      (tw2 : TimerWheel) (r2 : List Nat),
    drainFold now es tw r = some (tw2, r2) →
    ∃ fired : List Entry,
      (∀ e ∈ fired, e.1 ≤ now) ∧
      r2 = r ++ fired.map Prod.snd ∧
      (∀ x, cnt x (allEntries tw2) + cnt x fired =
        cnt x (allEntries tw) + cnt x es) ∧
      tw2.current_tick = tw.current_tick ∧
      tw2.tick_duration = tw.tick_duration ∧
      tw2.last_tick = tw.last_tick ∧
      tw2.wheels.length = tw.wheels.length ∧
      (∀ i, sizeAt tw2 i = sizeAt tw i) := by
  intro es
  induction es with
  | nil =>
      intro tw r tw2 r2 h
      injection h with h2
      rw [Prod.mk.injEq] at h2
      obtain ⟨htw, hr⟩ := h2
      subst htw
      subst hr
      exact ⟨[], by simp, by simp, fun x => rfl, rfl, rfl, rfl, rfl,
        fun i => rfl⟩
  | cons e es' ih =>
      intro tw r tw2 r2 h
      unfold drainFold at h
      by_cases hle : e.1 ≤ now
      · rw [if_pos hle] at h
        obtain ⟨fired, hf1, hf2, hf3, hs1, hs2, hs3, hs4, hs5⟩ :=
          ih tw (r ++ [e.2]) tw2 r2 h
        refine ⟨e :: fired, ?_, ?_, ?_, hs1, hs2, hs3, hs4, hs5⟩
        · intro a ha
          rcases List.mem_cons.mp ha with h' | h'
          · rw [h']; exact hle
          · exact hf1 a h'
        · rw [hf2]
          simp
        · intro x
          have h4 := hf3 x
          rw [cnt_cons x e fired, cnt_cons x e es']
          omega
      · rw [if_neg hle] at h
        cases hs : scheduleOpt tw now e.1 e.2 with
        | none => rw [hs] at h; cases h
        | some tw1 =>
            rw [hs] at h
            obtain ⟨hc1, hd1, hl1, hwl1, hsz1, hcnt1⟩ :=
              scheduleOpt_shape tw tw1 now e.1 e.2 hs
            obtain ⟨fired, hf1, hf2, hf3, hs1, hs2, hs3, hs4, hs5⟩ :=
              ih tw1 r tw2 r2 h
            refine ⟨fired, hf1, hf2, ?_, by omega, by omega, by omega,
              by omega, fun i => by rw [hs5 i, hsz1 i]⟩
            intro x
            have h4 := hf3 x
            have h5 := hcnt1 x
            have he : ((e.1, e.2) : Entry) = e := rfl
            rw [he] at h5
            rw [cnt_cons x e es']
            omega

theorem setSlot_shape (tw : TimerWheel) (level slot : Nat) (v : List Entry) :
    (setSlot tw level slot v).current_tick = tw.current_tick ∧
    (setSlot tw level slot v).tick_duration = tw.tick_duration ∧
    (setSlot tw level slot v).last_tick = tw.last_tick ∧
    (setSlot tw level slot v).wheels.length = tw.wheels.length ∧
    ∀ i, sizeAt (setSlot tw level slot v) i = sizeAt tw i :=
  ⟨rfl, rfl, rfl, by simp [setSlot], sizeAt_setSlot tw level slot v⟩

/- One level iteration of advance: everything appended to the ready list
is an expired entry, and the entry counts balance: what leaves the wheel
is exactly what is appended to ready. -/
theorem levelStep_master (now : Nat) (tw : TimerWheel) (r : List Nat)
    (level : Nat) (tw2 : TimerWheel) (r2 : List Nat)
    (h : levelStep now tw r level = some (tw2, r2)) :
    ∃ fired : List Entry,
      (∀ e ∈ fired, e.1 ≤ now) ∧
      r2 = r ++ fired.map Prod.snd ∧
      (∀ x, cnt x (allEntries tw2) + cnt x fired = cnt x (allEntries tw)) ∧
      tw2.current_tick = tw.current_tick ∧
      tw2.tick_duration = tw.tick_duration ∧
      tw2.last_tick = tw.last_tick ∧
      tw2.wheels.length = tw.wheels.length ∧
      (∀ i, sizeAt tw2 i = sizeAt tw i) := by
  unfold levelStep at h
  by_cases h0 : sizeAt tw level = 0
  · rw [if_pos h0] at h; cases h
  · rw [if_neg h0] at h
    dsimp only at h
    have h0' : 0 < sizeAt tw level := Nat.pos_of_ne_zero h0
    have hlevel : level < tw.wheels.length := sizeAt_pos_lt tw level h0'
    have hslot : tw.current_tick % sizeAt tw level < sizeAt tw level :=
      Nat.mod_lt _ h0'
    by_cases hg : tw.current_tick % sizeAt tw level = 0 ∧
        level < tw.wheels.length - 1
    · rw [if_pos hg] at h
      by_cases h1 : sizeAt tw (level + 1) = 0
      · rw [if_pos h1] at h; cases h
      · rw [if_neg h1] at h
        cases hcf : cascadeFold now
            (slotAt tw (level + 1)
              ((tw.current_tick / sizeAt tw level) % sizeAt tw (level + 1)))
            (setSlot tw (level + 1)
              ((tw.current_tick / sizeAt tw level) % sizeAt tw (level + 1)) [])
          with
        | none => rw [hcf] at h; cases h
        | some tw1 =>
            rw [hcf] at h
            have hl1 : level + 1 < tw.wheels.length := by omega
            have hns : (tw.current_tick / sizeAt tw level) %
                sizeAt tw (level + 1) < sizeAt tw (level + 1) :=
              Nat.mod_lt _ (Nat.pos_of_ne_zero h1)
            obtain ⟨hc1, hd1, hl1', hwl1, hsz1, hcnt1⟩ :=
              cascadeFold_master now _ _ tw1 hcf
            obtain ⟨ss1, ss2, ss3, ss4, ss5⟩ :=
              setSlot_shape tw (level + 1)
                ((tw.current_tick / sizeAt tw level) % sizeAt tw (level + 1)) []
            have hcntC := cnt_allEntries_setSlot tw (level + 1)
              ((tw.current_tick / sizeAt tw level) % sizeAt tw (level + 1)) []
              hl1 hns
            have hcnt_tw1 : ∀ x, cnt x (allEntries tw1) =
                cnt x (allEntries tw) := by
              intro x
              have hA := hcnt1 x
              have hB := hcntC x
              have hz : cnt x ([] : List Entry) = 0 := rfl
              omega
            have hsz_tw1 : ∀ i, sizeAt tw1 i = sizeAt tw i := by
              intro i
              rw [hsz1 i, ss5 i]
            have hlevel1 : level < tw1.wheels.length := by omega
            have hslot1 : tw.current_tick % sizeAt tw level < sizeAt tw1 level := by
              rw [hsz_tw1 level]; exact hslot
            obtain ⟨fired, hf1, hf2, hf3, hq1, hq2, hq3, hq4, hq5⟩ :=
              drainFold_master now _ _ _ tw2 r2 h
            obtain ⟨ts1, ts2, ts3, ts4, ts5⟩ :=
              setSlot_shape tw1 level (tw.current_tick % sizeAt tw level) []
            refine ⟨fired, hf1, hf2, ?_, by omega, by omega, by omega,
              by omega, ?_⟩
            · intro x
              have hD := hf3 x
              have hE := cnt_allEntries_setSlot tw1 level
                (tw.current_tick % sizeAt tw level) [] hlevel1 hslot1 x
              have hF := hcnt_tw1 x
              have hz : cnt x ([] : List Entry) = 0 := rfl
              omega
            · intro i
              rw [hq5 i, ts5 i, hsz_tw1 i]
    · rw [if_neg hg] at h
      dsimp only at h
      obtain ⟨fired, hf1, hf2, hf3, hq1, hq2, hq3, hq4, hq5⟩ :=
        drainFold_master now _ _ _ tw2 r2 h
      obtain ⟨ts1, ts2, ts3, ts4, ts5⟩ :=
        setSlot_shape tw level (tw.current_tick % sizeAt tw level) []
      refine ⟨fired, hf1, hf2, ?_, by omega, by omega, by omega, by omega, ?_⟩
      · intro x
        have hD := hf3 x
        have hE := cnt_allEntries_setSlot tw level
          (tw.current_tick % sizeAt tw level) [] hlevel hslot x
        have hz : cnt x ([] : List Entry) = 0 := rfl
        omega
      · intro i
        rw [hq5 i, ts5 i]

/- The per-tick loop over all levels. -/
theorem levelsFold_master (now : Nat) :
    ∀ (levels : List Nat) (tw : TimerWheel) (r : List Nat)
      (tw2 : TimerWheel) (r2 : List Nat),
    levelsFold now levels tw r = some (tw2, r2) →
    ∃ fired : List Entry,
      (∀ e ∈ fired, e.1 ≤ now) ∧
      r2 = r ++ fired.map Prod.snd ∧
      (∀ x, cnt x (allEntries tw2) + cnt x fired = cnt x (allEntries tw)) := by
  intro levels
  induction levels with
  | nil =>
      intro tw r tw2 r2 h
      injection h with h2
      rw [Prod.mk.injEq] at h2
      obtain ⟨htw, hr⟩ := h2
      subst htw
      subst hr
      exact ⟨[], by simp, by simp, fun x => rfl⟩
  | cons level rest ih =>
      intro tw r tw2 r2 h
      unfold levelsFold at h
      cases hls : levelStep now tw r level with
      | none => rw [hls] at h; cases h
      | some p =>
          obtain ⟨tw1, r1⟩ := p
          rw [hls] at h
          obtain ⟨f1, ha1, ha2, ha3, _, _, _, _, _⟩ :=
            levelStep_master now tw r level tw1 r1 hls
          obtain ⟨f2, hb1, hb2, hb3⟩ := ih tw1 r1 tw2 r2 h
          refine ⟨f1 ++ f2, ?_, ?_, ?_⟩
          · intro e he
            rcases List.mem_append.mp he with h' | h'
            · exact ha1 e h'
            · exact hb1 e h'
          · rw [hb2, ha2]
            simp
          · intro x
            have hA := ha3 x
            have hB := hb3 x
            rw [cnt_append x f1 f2]
            omega

/- One whole tick of advance. -/
theorem tickStep_master (now : Nat) (tw : TimerWheel) (r : List Nat)
    (tw2 : TimerWheel) (r2 : List Nat)
    (h : tickStep now tw r = some (tw2, r2)) :
    ∃ fired : List Entry,
      (∀ e ∈ fired, e.1 ≤ now) ∧
      r2 = r ++ fired.map Prod.snd ∧
      (∀ x, cnt x (allEntries tw2) + cnt x fired = cnt x (allEntries tw)) := by
  unfold tickStep at h
  dsimp only at h
  obtain ⟨fired, h1, h2, h3⟩ := levelsFold_master now _ _ _ tw2 r2 h
  exact ⟨fired, h1, h2, fun x => h3 x⟩

/- The catch-up while loop of advance. -/
theorem advanceLoop_master (now : Nat) :
    ∀ (fuel : Nat) (tw : TimerWheel) (r : List Nat)
      (tw2 : TimerWheel) (r2 : List Nat),
    advanceLoop now fuel tw r = some (tw2, r2) →
    ∃ fired : List Entry,
      (∀ e ∈ fired, e.1 ≤ now) ∧
      r2 = r ++ fired.map Prod.snd ∧
      (∀ x, cnt x (allEntries tw2) + cnt x fired = cnt x (allEntries tw)) := by
  intro fuel
  induction fuel with
  | zero =>
      intro tw r tw2 r2 h
      unfold advanceLoop at h
      by_cases hc : tw.last_tick + tw.tick_duration ≤ now
      · rw [if_pos hc] at h; cases h
      · rw [if_neg hc] at h
        injection h with h2
        rw [Prod.mk.injEq] at h2
        obtain ⟨htw, hr⟩ := h2
        subst htw
        subst hr
        exact ⟨[], by simp, by simp, fun x => rfl⟩
  | succ k ih =>
      intro tw r tw2 r2 h
      unfold advanceLoop at h
      by_cases hc : tw.last_tick + tw.tick_duration ≤ now
      · rw [if_pos hc] at h
        cases hts : tickStep now tw r with
        | none => rw [hts] at h; cases h
        | some p =>
            obtain ⟨tw1, r1⟩ := p
            rw [hts] at h
            obtain ⟨f1, ha1, ha2, ha3⟩ := tickStep_master now tw r tw1 r1 hts
            obtain ⟨f2, hb1, hb2, hb3⟩ := ih tw1 r1 tw2 r2 h
            refine ⟨f1 ++ f2, ?_, ?_, ?_⟩
            · intro e he
              rcases List.mem_append.mp he with h' | h'
              · exact ha1 e h'
              · exact hb1 e h'
            · rw [hb2, ha2]
              simp
            · intro x
              have hA := ha3 x
              have hB := hb3 x
              rw [cnt_append x f1 f2]
              omega
      · rw [if_neg hc] at h
        injection h with h2
        rw [Prod.mk.injEq] at h2
        obtain ⟨htw, hr⟩ := h2
        subst htw
        subst hr
        exact ⟨[], by simp, by simp, fun x => rfl⟩

/-- C6. Every task in the list returned by advance() comes from an entry
of the wheel whose deadline is ≤ the wall-clock instant sampled at the
start of the call — a timer never fires before its deadline — and every
entry whose deadline is later than that instant is retained (re-scheduled
into the wheel rather than returned): its occurrence count in the wheel
is unchanged across the call. -/
theorem advance_accuracy (tw : TimerWheel) (now : Nat)
    (tw2 : TimerWheel) (ready : List Nat)
    (h : advance tw now = some (tw2, ready)) :
    (∀ t ∈ ready, ∃ d, d ≤ now ∧ (d, t) ∈ allEntries tw) ∧
    (∀ d t, now < d →
      cnt (d, t) (allEntries tw2) = cnt (d, t) (allEntries tw)) := by
  unfold advance at h
  obtain ⟨fired, h1, h2, h3⟩ :=
    advanceLoop_master now (now + 1) tw [] tw2 ready h
  constructor
  · intro t ht
    rw [h2] at ht
    simp only [List.nil_append] at ht
    obtain ⟨e, he, hes⟩ := List.mem_map.mp ht
    refine ⟨e.1, h1 e he, ?_⟩
    have hpos := cnt_mem_pos e fired he
    have h4 := h3 e
    have h5 : 0 < cnt e (allEntries tw) := by omega
    have hmem := cnt_pos_mem e (allEntries tw) h5
    have hee : ((e.1, e.2) : Entry) = e := rfl
    rw [← hes, hee]
    exact hmem
  · intro d t hd
    have h4 := h3 (d, t)
    have h5 : cnt (d, t) fired = 0 := by
      by_contra hnz
      have hpos : 0 < cnt (d, t) fired := Nat.pos_of_ne_zero hnz
      have hmem := cnt_pos_mem (d, t) fired hpos
      have h6 := h1 (d, t) hmem
      simp only at h6
      omega
    omega

/-- C6 witness. A concrete two-level wheel holding an expired entry
(deadline 0, task 4) and a live entry (deadline 9, task 5): one tick at
instant 1 returns exactly task 4 and keeps the live entry in the wheel. -/
theorem advance_accuracy_witness :
    ∃ d, d ≤ 1 ∧
      (d, 4) ∈ allEntries ⟨[[[], [(0, 4), (9, 5)]], [[], []]], 0, 1, 0⟩ :=
  (advance_accuracy ⟨[[[], [(0, 4), (9, 5)]], [[], []]], 0, 1, 0⟩ 1
    ⟨[[[], []], [[], [(9, 5)]]], 1, 1, 1⟩ [4] (by decide)).1 4 (by decide)

/- getD after set, all cases at once. -/
theorem getD_set_cases {α : Type} (l : List α) (i j : Nat) (v d : α) :
    (l.set i v).getD j d = if i = j ∧ i < l.length then v else l.getD j d := by
  rw [List.getD_eq_getElem?_getD, List.getElem?_set]
  by_cases hij : i = j
  · subst hij
    by_cases hlen : i < l.length
    · simp [hlen]
    · simp [hlen, List.getD_eq_getElem?_getD,
        List.getElem?_eq_none (Nat.le_of_not_lt hlen)]
  · simp [hij, List.getD_eq_getElem?_getD]

theorem setSlot_getD_ne (tw : TimerWheel) (L S j : Nat) (v : List Entry)
    (hj : L ≠ j) :
    (setSlot tw L S v).wheels.getD j [] = tw.wheels.getD j [] := by
  unfold setSlot
  dsimp only
  rw [getD_set_cases]
  simp [hj]

theorem setSlot_getD_self (tw : TimerWheel) (L S : Nat) (v : List Entry)
    (hL : L < tw.wheels.length) :
    (setSlot tw L S v).wheels.getD L [] = (tw.wheels.getD L []).set S v := by
  unfold setSlot
  dsimp only
  rw [getD_set_cases]
  simp [hL]

theorem slotAt_setSlot_ne_level (tw : TimerWheel) (L S i s' : Nat)
    (v : List Entry) (hi : L ≠ i) :
    slotAt (setSlot tw L S v) i s' = slotAt tw i s' := by
  unfold slotAt
  rw [setSlot_getD_ne tw L S i v hi]

theorem pushed_getD_ne (tw : TimerWheel) (L S j : Nat) (e : Entry)
    (hj : L ≠ j) :
    (pushed tw L S e).wheels.getD j [] = tw.wheels.getD j [] := by
  unfold pushed pushAt
  dsimp only
  rw [getD_set_cases]
  simp [hj]

/- A push can only add the pushed entry to any slot. -/
theorem slotAt_pushed_mem (tw : TimerWheel) (L S : Nat) (e : Entry)
    (i s' : Nat) (e2 : Entry) (h : e2 ∈ slotAt (pushed tw L S e) i s') :
    e2 ∈ slotAt tw i s' ∨ e2 = e := by
  unfold slotAt pushed pushAt pushSlot at h
  dsimp only at h
  rw [getD_set_cases] at h
  by_cases hcase : L = i ∧ L < tw.wheels.length
  · rw [if_pos hcase] at h
    rw [getD_set_cases] at h
    by_cases hcase2 : S = s' ∧ S < (tw.wheels.getD L []).length
    · rw [if_pos hcase2] at h
      rcases List.mem_append.mp h with h' | h'
      · left
        unfold slotAt
        rw [← hcase.1, ← hcase2.1]
        exact h'
      · right
        simpa using h'
    · rw [if_neg hcase2] at h
      left
      unfold slotAt
      rw [← hcase.1]
      exact h
  · rw [if_neg hcase] at h
    left
    exact h

/- schedule with an expired deadline pushes into the current slot of
level 0 (whenever level 0 exists and has slots). -/
theorem scheduleOpt_expired (tw : TimerWheel) (now d tid : Nat)
    (hd : d ≤ now) (h0 : 0 < sizeAt tw 0) :
    scheduleOpt tw now d tid =
      some (pushed tw 0 (tw.current_tick % sizeAt tw 0) (d, tid)) := by
  have hlen : 0 < tw.wheels.length := sizeAt_pos_lt tw 0 h0
  obtain ⟨w0, tl, hws⟩ := List.exists_cons_of_ne_nil
    (List.ne_nil_of_length_pos hlen)
  have hsz : sizeAt tw 0 = w0.length := by
    unfold sizeAt; rw [hws]; rfl
  have hw0 : ¬ w0.length = 0 := by
    rw [← hsz]; exact h0.ne'
  unfold scheduleOpt pushed
  rw [if_pos hd, hws]
  simp only [List.head?_cons, if_neg hw0]
  rw [← hws, hsz]

/- Draining a slot whose entries are all expired appends all their tasks
to ready, in order, and leaves the wheel untouched. -/
theorem drainFold_all_expired (now : Nat) :
    ∀ (es : List Entry) (tw : TimerWheel) (r : List Nat),
    (∀ e ∈ es, e.1 ≤ now) →
    drainFold now es tw r = some (tw, r ++ es.map Prod.snd) := by
  intro es
  induction es with
  | nil => intro tw r _; simp [drainFold]
  | cons e es' ih =>
      intro tw r hall
      have he : e.1 ≤ now := hall e (List.mem_cons_self e es')
      have hrec := ih tw (r ++ [e.2]) fun a ha =>
        hall a (List.mem_cons_of_mem e ha)
      unfold drainFold
      rw [if_pos he, hrec]
      simp

/- Cascading a list of expired entries: everything lands in the current
slot of level 0, so every level j ≥ 1 is untouched, and any slot can only
gain entries from the cascaded list. -/
theorem cascadeFold_expired (now : Nat) :
    ∀ (es : List Entry) (tw : TimerWheel),
    (∀ e ∈ es, e.1 ≤ now) → 0 < sizeAt tw 0 →
    ∃ tw2, cascadeFold now es tw = some tw2 ∧
      tw2.current_tick = tw.current_tick ∧
      tw2.wheels.length = tw.wheels.length ∧
      (∀ i, sizeAt tw2 i = sizeAt tw i) ∧
      (∀ j, j ≠ 0 → tw2.wheels.getD j [] = tw.wheels.getD j []) ∧
      (∀ i s' e2, e2 ∈ slotAt tw2 i s' → e2 ∈ slotAt tw i s' ∨ e2 ∈ es) := by
  intro es
  induction es with
  | nil =>
      intro tw _ _
      exact ⟨tw, rfl, rfl, rfl, fun i => rfl, fun j _ => rfl,
        fun i s' e2 h => Or.inl h⟩
  | cons e es' ih =>
      intro tw hall h0
      have he : e.1 ≤ now := hall e (List.mem_cons_self e es')
      have hsched := scheduleOpt_expired tw now e.1 e.2 he h0
      have h0' : 0 < sizeAt (pushed tw 0 (tw.current_tick % sizeAt tw 0)
          (e.1, e.2)) 0 := by
        rw [sizeAt_pushed]; exact h0
      obtain ⟨tw2, hcf, hct, hlen, hsz, hgd, hmem⟩ :=
        ih (pushed tw 0 (tw.current_tick % sizeAt tw 0) (e.1, e.2))
          (fun a ha => hall a (List.mem_cons_of_mem e ha)) h0'
      refine ⟨tw2, ?_, ?_, ?_, ?_, ?_, ?_⟩
      · unfold cascadeFold
        rw [hsched]
        exact hcf
      · rw [hct]; rfl
      · rw [hlen]; simp [pushed, pushAt]
      · intro i; rw [hsz i, sizeAt_pushed]
      · intro j hj
        rw [hgd j hj, pushed_getD_ne tw 0 _ j (e.1, e.2) (Ne.symm hj)]
      · intro i s' e2 h2
        rcases hmem i s' e2 h2 with h3 | h3
        · rcases slotAt_pushed_mem tw 0 _ (e.1, e.2) i s' e2 h3 with h4 | h4
          · exact Or.inl h4
          · right
            rw [h4]
            exact List.mem_cons_self e es'
        · exact Or.inr (List.mem_cons_of_mem e h3)

/-- C5 counterexample. Wheel sizes [2, 2, 2], current_tick 1, tick
duration 1, one entry (deadline 2, task 9) in slot 1 of level 2.  One
call to advance at instant 1 processes the tick current_tick = 2: the
code drains level 2's slot 1 (the entry is re-scheduled down to level 0)
even though 2 mod (N₀·N₁) = 2 mod 4 ≠ 0 — the cascade fires on
current_tick mod Nₖ = 0, not on current_tick mod (N₀·…·Nₖ) = 0 as the
claim states. -/
theorem advance_cascade_counterexample :
    advance ⟨[[[], []], [[], []], [[], [(2, 9)]]], 1, 1, 0⟩ 1 =
      some (⟨[[[], [(2, 9)]], [[], []], [[], []]], 2, 1, 1⟩, []) ∧
    slotAt ⟨[[[], []], [[], []], [[], [(2, 9)]]], 1, 1, 0⟩ 2 1 = [(2, 9)] ∧
    slotAt ⟨[[[], [(2, 9)]], [[], []], [[], []]], 2, 1, 1⟩ 2 1 = [] ∧
    ¬ (2 % (2 * 2) = 0) := by
  decide

/-- C5 amended. In the per-level loop of advance, the slot
(current_tick / Nₖ) mod N_{k+1} of level k+1 is drained (and its entries
re-scheduled through schedule) exactly when current_tick mod Nₖ = 0 —
the code tests the tick against the single level size Nₖ, not against the
product N₀·…·Nₖ.  Stated for slots whose entries are all expired, so
that re-scheduling cannot refill the drained slot: afterwards level k+1
is exactly its old contents with the cascaded slot emptied when
current_tick mod Nₖ = 0, and is untouched otherwise. -/
theorem levelStep_cascade_condition (now : Nat) (tw : TimerWheel)
    (r : List Nat) (level : Nat)
    (h0 : 0 < sizeAt tw 0)
    (hk : 0 < sizeAt tw level)
    (hk1 : 0 < sizeAt tw (level + 1))
    (hlt : level + 1 < tw.wheels.length)
    (hexp : ∀ e ∈ slotAt tw level (tw.current_tick % sizeAt tw level),
      e.1 ≤ now)
    (hexp1 : ∀ e ∈ slotAt tw (level + 1)
      ((tw.current_tick / sizeAt tw level) % sizeAt tw (level + 1)),
      e.1 ≤ now) :
    ∃ tw2 r2, levelStep now tw r level = some (tw2, r2) ∧
      tw2.wheels.getD (level + 1) [] =
        (if tw.current_tick % sizeAt tw level = 0 then
          (tw.wheels.getD (level + 1) []).set
            ((tw.current_tick / sizeAt tw level) % sizeAt tw (level + 1)) []
        else tw.wheels.getD (level + 1) []) := by
  have hlev : level < tw.wheels.length - 1 := by omega
  unfold levelStep
  rw [if_neg hk.ne']
  dsimp only
  by_cases hs0 : tw.current_tick % sizeAt tw level = 0
  · rw [if_pos ⟨hs0, hlev⟩, if_neg hk1.ne']
    have h0D : 0 < sizeAt (setSlot tw (level + 1)
        ((tw.current_tick / sizeAt tw level) % sizeAt tw (level + 1)) []) 0 := by
      rw [sizeAt_setSlot]; exact h0
    obtain ⟨tw1, hcf, hct, hlen, hsz, hgd, hmem⟩ :=
      cascadeFold_expired now
        (slotAt tw (level + 1)
          ((tw.current_tick / sizeAt tw level) % sizeAt tw (level + 1)))
        (setSlot tw (level + 1)
          ((tw.current_tick / sizeAt tw level) % sizeAt tw (level + 1)) [])
        hexp1 h0D
    rw [hcf]
    dsimp only
    have hdrain : ∀ e ∈ slotAt tw1 level (tw.current_tick % sizeAt tw level),
        e.1 ≤ now := by
      intro e he
      rcases hmem level (tw.current_tick % sizeAt tw level) e he with h3 | h3
      · rw [slotAt_setSlot_ne_level tw (level + 1) _ level _ []
          (by omega)] at h3
        exact hexp e h3
      · exact hexp1 e h3
    rw [drainFold_all_expired now _ _ r hdrain]
    refine ⟨_, _, rfl, ?_⟩
    rw [if_pos hs0]
    rw [setSlot_getD_ne tw1 level _ (level + 1) [] (by omega)]
    rw [hgd (level + 1) (by omega)]
    rw [setSlot_getD_self tw (level + 1) _ [] hlt]
  · rw [if_neg (by
      intro hand
      exact hs0 hand.1)]
    dsimp only
    rw [drainFold_all_expired now _ _ r hexp]
    refine ⟨_, _, rfl, ?_⟩
    rw [if_neg hs0]
    rw [setSlot_getD_ne tw level _ (level + 1) [] (by omega)]

/-- C5 amended witness. A three-level wheel (sizes [2, 2, 2], all the
relevant slots empty) at current_tick 2, level 0: the cascade condition
holds (2 mod 2 = 0) and level 1 ends up with its cascaded slot set
empty. -/
theorem levelStep_cascade_condition_witness :
    ∃ tw2 r2,
      levelStep 3 ⟨[[[], []], [[], []], [[], []]], 2, 1, 5⟩ [] 0 =
        some (tw2, r2) ∧
      tw2.wheels.getD 1 [] =
        (if 2 % sizeAt ⟨[[[], []], [[], []], [[], []]], 2, 1, 5⟩ 0 = 0 then
          (([[], []] : List (List Entry))).set
            ((2 / sizeAt ⟨[[[], []], [[], []], [[], []]], 2, 1, 5⟩ 0) %
              sizeAt ⟨[[[], []], [[], []], [[], []]], 2, 1, 5⟩ 1) []
        else ([[], []] : List (List Entry))) :=
  levelStep_cascade_condition 3 ⟨[[[], []], [[], []], [[], []]], 2, 1, 5⟩
    [] 0 (by decide) (by decide) (by decide) (by decide)
    (by decide) (by decide)

end RustRuntime
